import Mathlib

/-!
Shallow embedding of `src/tree.ts` (geometryzen/math-expression-tree).

Modelling decisions:
* The expression-handle interface `U` is modelled as an inductive type with two
  constructors: `atom` (an opaque external atom, identified by a string value,
  mirroring the test `Atom` class whose `equals` compares values and whose
  `contains` defers to `equals`) and `cons` (the `Cons` class, holding the two
  private optional slots `#car` and `#cdr` as `Option U`).
* JavaScript reference identity (`===`) is modelled as structural equality of
  the Lean values.  This is sound for identical references; two separately
  constructed but structurally identical objects are conflated.
* JavaScript truthiness of the object-typed private slots is `Option.isSome`
  (every `U` value is an object, hence truthy when present).
* A thrown exception is `Except.error` with an `Err` constructor named after
  the spec's error taxonomy (`ShapeError`, `IndexError`, `EmptyListError`) or
  after the throw site (`cdrNotCons` for the unnamed throw in the `cdr` getter).
* `Cons` methods are functions on `U`; an `atom` receiver is impossible in the
  source (the methods live on the `Cons` class), so those cases are marked
  unreachable and their values are never relied upon.
-/

inductive U : Type where
  | atom (value : String) : U
  | cons (carSlot : Option U) (cdrSlot : Option U) : U
deriving Repr

mutual

def U.decEq : (a b : U) → Decidable (a = b)
  | .atom x, .atom y =>
      match String.decEq x y with
      | isTrue h => isTrue (by rw [h])
      | isFalse h => isFalse (by intro hh; cases hh; exact h rfl)
  | .cons c1 d1, .cons c2 d2 =>
      match U.decEqOpt c1 c2, U.decEqOpt d1 d2 with
      | isTrue h1, isTrue h2 => isTrue (by rw [h1, h2])
      | isFalse h1, _ => isFalse (by intro hh; cases hh; exact h1 rfl)
      | _, isFalse h2 => isFalse (by intro hh; cases hh; exact h2 rfl)
  | .atom _, .cons _ _ => isFalse (by intro hh; cases hh)
  | .cons _ _, .atom _ => isFalse (by intro hh; cases hh)

def U.decEqOpt : (a b : Option U) → Decidable (a = b)
  | none, none => isTrue rfl
  | some x, some y =>
      match U.decEq x y with
      | isTrue h => isTrue (by rw [h])
      | isFalse h => isFalse (by intro hh; cases hh; exact h rfl)
  | none, some _ => isFalse (by intro hh; cases hh)
  | some _, none => isFalse (by intro hh; cases hh)

end

instance : DecidableEq U := U.decEq

/-- The empty list (`export const nil = new Cons(void 0, void 0)`). -/
def nil : U := U.cons none none

/-- `Cons.isNil()`: true iff `#car` is unset; the external atoms' `isNil` returns false. -/
def U.isNil : U → Bool
  | .atom _ => false
  | .cons c? _ => c?.isNone

/-- `Cons.isCons()`: true iff `#car` is set; the external atoms' `isCons` returns false. -/
def U.isCons : U → Bool
  | .atom _ => false
  | .cons c? _ => c?.isSome

/-- `is_cons(expr)`: `expr instanceof Cons && !expr.isNil()`. -/
def is_cons : U → Bool
  | .cons (some _) _ => true
  | _ => false

/-- `is_nil(expr)`: `expr.isNil()`. -/
def is_nil (expr : U) : Bool := expr.isNil

/-- `is_atom(expr)`: neither `is_cons` nor `is_nil`. -/
def is_atom (expr : U) : Bool :=
  if is_cons expr then false
  else if is_nil expr then false
  else true

/-- Errors thrown by the source, named after the spec's error taxonomy.
`cdrNotCons` is the unnamed `throw new Error()` in the `cdr` getter;
`shape` is the spec's `ShapeError` (the throw in the free `cons` function);
`indexOutOfBounds` is the spec's `IndexError` (`"index out of bounds."`);
`emptyList` is the spec's `EmptyListError`
(`"tail property is not allowed for the empty list."`). -/
inductive Err : Type where
  | cdrNotCons : Err
  | shape : Err
  | indexOutOfBounds : Err
  | emptyList : Err
deriving Repr, DecidableEq

/-- The `car` getter: returns `#car` if defined, otherwise NIL.  Total. -/
def U.car : U → U
  | .cons (some c) _ => c
  | .cons none _ => nil
  | .atom _ => nil    -- unreachable: the getter lives on `Cons`

/-- The `cdr` getter: returns `#cdr` if it is defined and a `Cons`,
NIL if undefined, and throws if defined but not a `Cons`. -/
def U.cdr : U → Except Err U
  | .cons _ (some (.cons c d)) => .ok (.cons c d)
  | .cons _ (some (.atom _)) => .error .cdrNotCons
  | .cons _ none => .ok nil
  | .atom _ => .error .cdrNotCons    -- unreachable: the getter lives on `Cons`

/-- The `argList` getter: exactly the same as the `cdr` getter. -/
def U.argList (u : U) : Except Err U := u.cdr

/-- The `head` getter: exactly the same as the `car` getter. -/
def U.head (u : U) : U := u.car

/-- The `base` getter: `this.argList.head`. -/
def U.base (u : U) : Except Err U := do
  let a ← u.argList
  pure a.head

/-- The `expo` getter: `this.cdr.cdr.car`. -/
def U.expo (u : U) : Except Err U := do
  let a ← u.cdr
  let b ← a.cdr
  pure b.car

/-- `Cons.item(index)`: `index >= 0 && !isNil` guard, `index == 0` returns the
`car` getter's value, otherwise recurses into `argList` (the `cdr` getter,
whose throw propagates) when it `is_cons`; every fall-through throws the
`IndexError`. -/
def U.item : U → Int → Except Err U
  | .cons (some c) d?, index =>
      if 0 ≤ index then
        if index = 0 then .ok c
        else
          match d? with
          | some (.cons (some c2) d2) => U.item (.cons (some c2) d2) (index - 1)
          | some (.cons none _) => .error .indexOutOfBounds
          | some (.atom _) => .error .cdrNotCons
          | none => .error .indexOutOfBounds
      else .error .indexOutOfBounds
  | .cons none _, _ => .error .indexOutOfBounds
  | .atom _, _ => .error .indexOutOfBounds    -- unreachable: the method lives on `Cons`

/-- The `opr` getter: `this.item(0)`. -/
def U.opr (u : U) : Except Err U := u.item 0

/-- The `arg` getter: `this.item(1)`. -/
def U.arg (u : U) : Except Err U := u.item 1

/-- The `lhs` getter: `this.item(1)`. -/
def U.lhs (u : U) : Except Err U := u.item 1

/-- The `rhs` getter: `this.item(2)`. -/
def U.rhs (u : U) : Except Err U := u.item 2

/-- The `length` getter: 0 when `isNil`, else `argList.length + 1` when the
`argList` (the `cdr` getter, whose throw propagates) `is_cons`, else 1. -/
def U.length : U → Except Err Nat
  | .cons none _ => .ok 0
  | .cons (some _) d? =>
      match d? with
      | some (.cons (some c2) d2) => do
          let n ← U.length (.cons (some c2) d2)
          pure (n + 1)
      | some (.cons none _) => .ok 1
      | some (.atom _) => .error .cdrNotCons
      | none => .ok 1
  | .atom _ => .ok 0    -- unreachable: the getter lives on `Cons`

/-- The `[Symbol.iterator]` generator collected into a list: while `is_cons u`,
yield the `car` getter's value and advance by the `cdr` getter (whose throw
propagates). -/
def U.iterItems : U → Except Err (List U)
  | .cons (some c) (some (.cons c2 d2)) => do
      let r ← U.iterItems (.cons c2 d2)
      pure (c :: r)
  | .cons (some _) (some (.atom _)) => .error .cdrNotCons
  | .cons (some c) none => .ok [c]
  | _ => .ok []

/-- `Cons.tail()`: throws on `isNil`; otherwise reads the raw `#cdr` slot and
spreads its iterator when it is defined and `is_cons`, else returns `[]`. -/
def U.tail : U → Except Err (List U)
  | .cons none _ => .error .emptyList
  | .cons (some _) d? =>
      match d? with
      | some (.cons (some c2) d2) => U.iterItems (.cons (some c2) d2)
      | _ => .ok []
  | .atom _ => .error .emptyList    -- unreachable: the method lives on `Cons`

/-- `Cons.map(f)`: returns `this` when `isNil`; otherwise builds
`new Cons(f(car), is_cons(cdr) ? cdr.map(f) : cdr)` where `cdr` is the getter
(whose throw propagates) and a non-`is_cons` tail is kept as-is. -/
def U.map : U → (U → U) → Except Err U
  | .cons none d?, _ => .ok (.cons none d?)
  | .cons (some c) d?, f =>
      match d? with
      | some (.cons (some c2) d2) => do
          let m ← U.map (.cons (some c2) d2) f
          pure (.cons (some (f c)) (some m))
      | some (.cons none d2) => .ok (.cons (some (f c)) (some (.cons none d2)))
      | some (.atom _) => .error .cdrNotCons
      | none => .ok (.cons (some (f c)) (some nil))
  | .atom a, _ => .ok (.atom a)    -- unreachable: the method lives on `Cons`

/-- The free `cons` function: requires `cdr instanceof Cons`, else throws the
`ShapeError`. -/
def cons (car cdr : U) : Except Err U :=
  match cdr with
  | .cons c d => .ok (.cons (some car) (some (.cons c d)))
  | .atom _ => .error .shape

/-- `items_to_cons(...items)`: right fold building a NIL-terminated chain. -/
def items_to_cons (items : List U) : U :=
  items.foldr (fun it node => U.cons (some it) (some node)) nil

/-- The free `car` function: `node.car` when `is_cons`, else NIL.  Total. -/
def car (node : U) : U :=
  if is_cons node then node.car else nil

/-- The free `cdr` function: `node.cdr` (the getter, whose throw propagates)
when `is_cons`, else NIL. -/
def cdr (node : U) : Except Err U :=
  if is_cons node then node.cdr else .ok nil

/-- Well-formedness: every `#cdr` slot reachable through either slot is
list-shaped (a `Cons`), matching the spec's data-model invariant. -/
def U.wf : U → Bool
  | .atom _ => true
  | .cons c? d? =>
      (match c? with
       | none => true
       | some c => c.wf) &&
      (match d? with
       | none => true
       | some (.cons c2 d2) => U.wf (.cons c2 d2)
       | some (.atom _) => false)

/-- `Atom.equals` of the external test atom: same reference or same value;
false against any non-atom. -/
def atomEquals (a : String) : U → Bool
  | .atom b => a == b
  | .cons _ _ => false

mutual

/-- `equals`: reference-identity short-circuit, then dispatch on `other`:
`is_cons` goes to `equal_cons_cons`, `is_atom` is false, `isNil` compares
with `this.isNil()`, anything else is false.  Atom receivers use the
external atom's own `equals`. -/
def U.equals : U → U → Except Err Bool
  | .atom a, other => .ok (atomEquals a other)
  | .cons c? d?, other =>
      if U.cons c? d? = other then .ok true
      else if h : is_cons other then equal_cons_cons (.cons c? d?) other
      else if is_atom other then .ok false
      else if other.isNil then .ok (U.cons c? d?).isNil
      else .ok false
termination_by u o => (sizeOf u + sizeOf o, if is_cons o then 1 else 0, 1)
decreasing_by
  all_goals simp_wf
  all_goals first
  | (apply Prod.Lex.left
     have hc1 : 0 < sizeOf c1 := by cases c1 <;> simp_arith
     have hc2 : 0 < sizeOf c2 := by cases c2 <;> simp_arith
     try simp [nil]
     all_goals omega)
  | (apply Prod.Lex.left
     try simp [nil]
     all_goals omega)
  | (apply Prod.Lex.right
     first
     | (simp only [h, if_true]
        exact Prod.Lex.right 1 Nat.zero_lt_one)
     | (simp only [h2, if_false, Bool.false_eq_true]
        exact Prod.Lex.left 1 0 Nat.zero_lt_one)
     | (simp [h2]
        exact Prod.Lex.left 1 0 Nat.zero_lt_one))

/-- `equal_cons_cons`: lock-step walk; while both are `is_cons`, compare the
`car` getters' values with `equals` and advance both by the `cdr` getter
(whose throw propagates); when either stops being `is_cons`, a remaining
`is_cons` side means unequal, else compare the two terminators with
`equals`. -/
def equal_cons_cons : U → U → Except Err Bool
  | .cons (some c1) d1, .cons (some c2) d2 => do
      let b ← U.equals c1 c2
      if b then
        match d1, d2 with
        | some (.atom _), _ => .error .cdrNotCons
        | _, some (.atom _) => .error .cdrNotCons
        | some (.cons a1 b1), some (.cons a2 b2) =>
            equal_cons_cons (.cons a1 b1) (.cons a2 b2)
        | some (.cons a1 b1), none => equal_cons_cons (.cons a1 b1) nil
        | none, some (.cons a2 b2) => equal_cons_cons nil (.cons a2 b2)
        | none, none => equal_cons_cons nil nil
      else .ok false
  | p1, p2 =>
      if is_cons p1 then .ok false
      else if h2 : is_cons p2 then .ok false
      else U.equals p1 p2
termination_by p1 p2 => (sizeOf p1 + sizeOf p2, 1, 0)
decreasing_by
  all_goals simp_wf
  all_goals first
  | (apply Prod.Lex.left
     have hc1 : 0 < sizeOf c1 := by cases c1 <;> simp_arith
     have hc2 : 0 < sizeOf c2 := by cases c2 <;> simp_arith
     try simp [nil]
     all_goals omega)
  | (apply Prod.Lex.left
     try simp [nil]
     all_goals omega)
  | (apply Prod.Lex.right
     first
     | (simp only [h, if_true]
        exact Prod.Lex.right 1 Nat.zero_lt_one)
     | (simp [h2]
        exact Prod.Lex.left 1 0 Nat.zero_lt_one))

end

/-- `contains`: reference-identity or `equals` (whose throw propagates)
short-circuit, then descend into both raw slots when both are defined.
Atom receivers defer to the external atom's `equals`. -/
def U.contains : U → U → Except Err Bool
  | .atom a, needle => .ok (atomEquals a needle)
  | .cons c? d?, needle =>
      if U.cons c? d? = needle then .ok true
      else do
        let b ← U.equals (.cons c? d?) needle
        if b then .ok true
        else
          match c?, d? with
          | some c, some d => do
              let bc ← U.contains c needle
              if bc then .ok true
              else U.contains d needle
          | _, _ => .ok false

/-! ### Derived evaluation lemmas for list chains -/

theorem items_to_cons_nil_eq : items_to_cons [] = nil := rfl

theorem items_to_cons_cons_eq (x : U) (xs : List U) :
    items_to_cons (x :: xs) = U.cons (some x) (some (items_to_cons xs)) := rfl

theorem chain_shape (xs : List U) : ∃ c2 d2, items_to_cons xs = U.cons c2 d2 := by
  cases xs with
  | nil => exact ⟨none, none, rfl⟩
  | cons x rest => exact ⟨some x, some (items_to_cons rest), rfl⟩

theorem iterItems_step (c : U) (c2 d2 : Option U) :
    U.iterItems (U.cons (some c) (some (U.cons c2 d2))) =
      (do
        let r ← U.iterItems (U.cons c2 d2)
        pure (c :: r)) := rfl

theorem iterItems_nil_car (d? : Option U) : U.iterItems (U.cons none d?) = .ok [] := by
  cases d? <;> rfl

theorem length_step (c : U) (c2 : U) (d2 : Option U) :
    U.length (U.cons (some c) (some (U.cons (some c2) d2))) =
      (do
        let n ← U.length (U.cons (some c2) d2)
        pure (n + 1)) := rfl

theorem map_step (c : U) (c2 : U) (d2 : Option U) (f : U → U) :
    U.map (U.cons (some c) (some (U.cons (some c2) d2))) f =
      (do
        let m ← U.map (U.cons (some c2) d2) f
        pure (U.cons (some (f c)) (some m))) := rfl

theorem item_chain_get (xs : List U) (i : Nat) (v : U) (hv : xs[i]? = some v) :
    U.item (items_to_cons xs) i = .ok v := by
  induction xs generalizing i with
  | nil => simp at hv
  | cons x rest ih =>
      cases i with
      | zero =>
          simp at hv
          subst hv
          rw [items_to_cons_cons_eq, U.item.eq_def]
          simp
      | succ n =>
          simp at hv
          cases rest with
          | nil => simp at hv
          | cons y t =>
              have hrec := ih n hv
              rw [items_to_cons_cons_eq, items_to_cons_cons_eq, U.item.eq_def]
              have h0 : (0:Int) ≤ ((n+1 : Nat) : Int) := by positivity
              have h1 : ¬(((n+1 : Nat) : Int) = 0) := by push_cast; omega
              have h2 : ((n+1 : Nat) : Int) - 1 = ((n : Nat) : Int) := by push_cast; omega
              simp only [h0, if_true, h1, if_false, h2]
              rw [← items_to_cons_cons_eq]
              exact hrec

theorem item_chain_oob (xs : List U) (i : Int) (h : i < 0 ∨ (xs.length : Int) ≤ i) :
    U.item (items_to_cons xs) i = .error .indexOutOfBounds := by
  induction xs generalizing i with
  | nil =>
      rw [items_to_cons_nil_eq, U.item.eq_def]
      simp [nil]
  | cons x rest ih =>
      rw [items_to_cons_cons_eq, U.item.eq_def]
      rcases h with hneg | hge
      · have h0 : ¬ ((0:Int) ≤ i) := by omega
        simp [h0]
      · have h0 : (0:Int) ≤ i := by simp at hge; omega
        have h1 : ¬ (i = 0) := by simp at hge; omega
        simp only [h0, if_true, h1, if_false]
        cases rest with
        | nil =>
            rw [items_to_cons_nil_eq]
            simp [nil]
        | cons y t =>
            rw [items_to_cons_cons_eq]
            have hrec := ih (i - 1) (by right; simp at hge ⊢; omega)
            rw [items_to_cons_cons_eq] at hrec
            exact hrec

theorem iter_chain (xs : List U) : U.iterItems (items_to_cons xs) = .ok xs := by
  induction xs with
  | nil => rfl
  | cons x rest ih =>
      obtain ⟨c2, d2, hcd⟩ := chain_shape rest
      rw [items_to_cons_cons_eq, hcd, iterItems_step, ← hcd, ih]
      rfl

theorem tail_chain (x : U) (xs : List U) :
    U.tail (items_to_cons (x :: xs)) = .ok xs := by
  cases xs with
  | nil => rfl
  | cons y t =>
      show U.iterItems (items_to_cons (y :: t)) = .ok (y :: t)
      exact iter_chain (y :: t)

theorem tail_nil_err : U.tail nil = .error .emptyList := rfl

theorem length_chain (xs : List U) : U.length (items_to_cons xs) = .ok xs.length := by
  induction xs with
  | nil => rfl
  | cons x rest ih =>
      cases rest with
      | nil => rfl
      | cons y t =>
          rw [items_to_cons_cons_eq, items_to_cons_cons_eq, length_step,
            ← items_to_cons_cons_eq, ih]
          rfl

theorem map_chain (xs : List U) (f : U → U) :
    U.map (items_to_cons xs) f = .ok (items_to_cons (xs.map f)) := by
  induction xs with
  | nil => rfl
  | cons x rest ih =>
      cases rest with
      | nil => rfl
      | cons y t =>
          rw [items_to_cons_cons_eq, items_to_cons_cons_eq, map_step,
            ← items_to_cons_cons_eq, ih]
          rfl

theorem wf_chain_step (x : U) (xs : List U) :
    U.wf (items_to_cons (x :: xs)) = (U.wf x && U.wf (items_to_cons xs)) := by
  obtain ⟨c2, d2, hcd⟩ := chain_shape xs
  rw [items_to_cons_cons_eq, hcd, U.wf.eq_def]

theorem wf_items (xs : List U) (h : ∀ x ∈ xs, U.wf x = true) :
    U.wf (items_to_cons xs) = true := by
  induction xs with
  | nil => rfl
  | cons x rest ih =>
      rw [wf_chain_step]
      have hx : U.wf x = true := h x (by simp)
      have hrest := ih (fun z hz => h z (by simp [hz]))
      simp [hx, hrest]

/-! ### Equality, totality and containment lemmas -/

theorem equals_atom_recv (a : String) (o : U) :
    U.equals (U.atom a) o = .ok (atomEquals a o) := by
  rw [U.equals.eq_def]

theorem equals_self (u : U) : U.equals u u = .ok true := by
  cases u with
  | atom a => rw [equals_atom_recv]; simp [atomEquals]
  | cons c? d? => rw [U.equals.eq_def]; simp

theorem equals_cons_recv (c? d? : Option U) (o : U) :
    U.equals (U.cons c? d?) o =
      (if U.cons c? d? = o then .ok true
       else if is_cons o then equal_cons_cons (U.cons c? d?) o
       else if is_atom o then .ok false
       else if o.isNil then .ok ((U.cons c? d?).isNil)
       else .ok false) := by
  rw [U.equals.eq_def]
  simp only [dite_eq_ite]

theorem ecc_step (c1 c2 : U) (d1 d2 : Option U) :
    equal_cons_cons (U.cons (some c1) d1) (U.cons (some c2) d2) =
      (do
        let b ← U.equals c1 c2
        if b then
          match d1, d2 with
          | some (.atom _), _ => .error .cdrNotCons
          | _, some (.atom _) => .error .cdrNotCons
          | some (.cons a1 b1), some (.cons a2 b2) =>
              equal_cons_cons (U.cons a1 b1) (U.cons a2 b2)
          | some (.cons a1 b1), none => equal_cons_cons (U.cons a1 b1) nil
          | none, some (.cons a2 b2) => equal_cons_cons nil (U.cons a2 b2)
          | none, none => equal_cons_cons nil nil
        else .ok false) := by
  rw [equal_cons_cons.eq_def]

theorem ecc_fallback (p1 p2 : U) (h : is_cons p1 = false ∨ is_cons p2 = false) :
    equal_cons_cons p1 p2 =
      (if is_cons p1 then .ok false
       else if is_cons p2 then .ok false
       else U.equals p1 p2) := by
  rcases p1 with a1 | ⟨c1, d1⟩ <;> rcases p2 with a2 | ⟨c2, d2⟩
  · rw [equal_cons_cons.eq_def]; simp only [dite_eq_ite]
  · rw [equal_cons_cons.eq_def]; simp only [dite_eq_ite]
  · rw [equal_cons_cons.eq_def]; simp only [dite_eq_ite]
  · rcases c1 with _ | x1 <;> rcases c2 with _ | x2
    · rw [equal_cons_cons.eq_def]; simp only [dite_eq_ite]
    · rw [equal_cons_cons.eq_def]; simp only [dite_eq_ite]
    · rw [equal_cons_cons.eq_def]; simp only [dite_eq_ite]
    · simp [is_cons] at h

theorem ecc_nil_nil : equal_cons_cons nil nil = .ok true := by
  rw [ecc_fallback nil nil (by simp [nil, is_cons])]
  simp [nil, is_cons, equals_self]

theorem is_cons_cons (c? d? : Option U) : is_cons (U.cons c? d?) = c?.isSome := by
  cases c? <;> rfl

theorem is_cons_atom (a : String) : is_cons (U.atom a) = false := rfl

theorem isNil_cons (c? d? : Option U) : (U.cons c? d?).isNil = c?.isNone := rfl

theorem isNil_atom (a : String) : (U.atom a).isNil = false := rfl

theorem is_atom_cons (c? d? : Option U) : is_atom (U.cons c? d?) = false := by
  cases c? <;> rfl

theorem is_atom_atom (a : String) : is_atom (U.atom a) = true := rfl

theorem is_cons_shape (p : U) (h : is_cons p = true) :
    ∃ x d?, p = U.cons (some x) d? := by
  cases p with
  | atom a => simp [is_cons] at h
  | cons c? d? =>
      cases c? with
      | none => simp [is_cons] at h
      | some x => exact ⟨x, d?, rfl⟩

theorem sizeOf_pos_U (u : U) : 0 < sizeOf u := by
  cases u <;> simp_arith

theorem equals_symm_not_cons (a b : U) (hb : is_cons b = false) :
    U.equals a b = U.equals b a := by
  cases a with
  | atom x =>
      cases b with
      | atom y =>
          rw [equals_atom_recv, equals_atom_recv]
          by_cases hxy : x = y
          · subst hxy; rfl
          · have h1 : (x == y) = false := beq_eq_false_iff_ne.mpr hxy
            have h2 : (y == x) = false := beq_eq_false_iff_ne.mpr (Ne.symm hxy)
            simp [atomEquals, h1, h2]
      | cons c2 d2 =>
          rw [equals_atom_recv, equals_cons_recv]
          have hne : ¬ (U.cons c2 d2 = U.atom x) := by simp
          rw [if_neg hne, is_cons_atom, is_atom_atom]
          simp [atomEquals]
  | cons c1 d1 =>
      cases b with
      | atom y =>
          rw [equals_atom_recv, equals_cons_recv]
          have hne : ¬ (U.cons c1 d1 = U.atom y) := by simp
          rw [if_neg hne, is_cons_atom, is_atom_atom]
          simp [atomEquals]
      | cons c2 d2 =>
          rw [is_cons_cons] at hb
          cases c2 with
          | some x2 => simp at hb
          | none =>
              cases c1 with
              | none =>
                  by_cases hab : U.cons (none : Option U) d1 = U.cons (none : Option U) d2
                  · rw [hab]
                  · have hba : ¬ (U.cons (none : Option U) d2 = U.cons (none : Option U) d1) :=
                      fun h => hab h.symm
                    rw [equals_cons_recv, equals_cons_recv, if_neg hab, if_neg hba]
                    simp [is_cons_cons, is_atom_cons, isNil_cons]
              | some x1 =>
                  have hab : ¬ (U.cons (some x1) d1 = U.cons (none : Option U) d2) := by simp
                  have hba : ¬ (U.cons (none : Option U) d2 = U.cons (some x1) d1) := by simp
                  rw [equals_cons_recv, equals_cons_recv, if_neg hab, if_neg hba]
                  have hecc := ecc_fallback (U.cons none d2) (U.cons (some x1) d1)
                    (Or.inl (by rw [is_cons_cons]; rfl))
                  simp [is_cons_cons, is_atom_cons, isNil_cons, hecc]

theorem symm_both (n : Nat) :
    (∀ p1 p2 : U, sizeOf p1 + sizeOf p2 ≤ n →
        equal_cons_cons p1 p2 = equal_cons_cons p2 p1) ∧
    (∀ a b : U, sizeOf a + sizeOf b ≤ n → U.equals a b = U.equals b a) := by
  induction n with
  | zero =>
      constructor
      · intro p1 p2 h
        have := sizeOf_pos_U p1
        have := sizeOf_pos_U p2
        omega
      · intro a b h
        have := sizeOf_pos_U a
        have := sizeOf_pos_U b
        omega
  | succ n ih =>
      have hecc : ∀ p1 p2 : U, sizeOf p1 + sizeOf p2 ≤ n + 1 →
          equal_cons_cons p1 p2 = equal_cons_cons p2 p1 := by
        intro p1 p2 hsz
        by_cases h1 : is_cons p1 = true
        · by_cases h2 : is_cons p2 = true
          · obtain ⟨x1, d1, he1⟩ := is_cons_shape p1 h1
            obtain ⟨x2, d2, he2⟩ := is_cons_shape p2 h2
            subst he1
            subst he2
            have hs1 : sizeOf (U.cons (some x1) d1) = 2 + sizeOf x1 + sizeOf d1 := by
              simp_arith
            have hs2 : sizeOf (U.cons (some x2) d2) = 2 + sizeOf x2 + sizeOf d2 := by
              simp_arith
            have hcar : U.equals x1 x2 = U.equals x2 x1 := by
              apply ih.2
              rw [hs1, hs2] at hsz
              omega
            rw [ecc_step, ecc_step, hcar]
            cases he : U.equals x2 x1 with
            | error e => simp [Bind.bind, Except.bind]
            | ok bb =>
                cases bb with
                | false => simp [Bind.bind, Except.bind]
                | true =>
                    simp only [Bind.bind, Except.bind, if_true]
                    rcases d1 with _ | z1
                    · rcases d2 with _ | z2
                      · rfl
                      · cases z2 with
                        | atom a2 => rfl
                        | cons e2 f2 =>
                            apply ih.1
                            have : sizeOf (some (U.cons e2 f2) : Option U) =
                                2 + sizeOf e2 + sizeOf f2 := by simp_arith
                            rw [hs1, hs2, this] at hsz
                            simp [nil]
                            omega
                    · cases z1 with
                      | atom a1 =>
                          rcases d2 with _ | z2
                          · rfl
                          · cases z2 <;> rfl
                      | cons e1 f1 =>
                          rcases d2 with _ | z2
                          · apply ih.1
                            have : sizeOf (some (U.cons e1 f1) : Option U) =
                                2 + sizeOf e1 + sizeOf f1 := by simp_arith
                            rw [hs1, hs2, this] at hsz
                            simp [nil]
                            omega
                          · cases z2 with
                            | atom a2 => rfl
                            | cons e2 f2 =>
                                apply ih.1
                                have hz1 : sizeOf (some (U.cons e1 f1) : Option U) =
                                    2 + sizeOf e1 + sizeOf f1 := by simp_arith
                                have hz2 : sizeOf (some (U.cons e2 f2) : Option U) =
                                    2 + sizeOf e2 + sizeOf f2 := by simp_arith
                                rw [hs1, hs2, hz1, hz2] at hsz
                                simp_arith
                                omega
          · have h2f : is_cons p2 = false := by simpa using h2
            rw [ecc_fallback p1 p2 (Or.inr h2f), ecc_fallback p2 p1 (Or.inl h2f)]
            simp [h1, h2f]
        · have h1f : is_cons p1 = false := by simpa using h1
          by_cases h2 : is_cons p2 = true
          · rw [ecc_fallback p1 p2 (Or.inl h1f), ecc_fallback p2 p1 (Or.inr h1f)]
            simp [h1f, h2]
          · have h2f : is_cons p2 = false := by simpa using h2
            rw [ecc_fallback p1 p2 (Or.inl h1f), ecc_fallback p2 p1 (Or.inl h2f)]
            simp [h1f, h2f]
            exact equals_symm_not_cons p1 p2 h2f
      refine ⟨hecc, ?_⟩
      intro a b hsz
      by_cases hb : is_cons b = true
      · cases a with
        | atom x =>
            obtain ⟨x2, d2, he2⟩ := is_cons_shape b hb
            subst he2
            rw [equals_atom_recv, equals_cons_recv]
            have hne : ¬ (U.cons (some x2) d2 = U.atom x) := by simp
            rw [if_neg hne, is_cons_atom, is_atom_atom]
            simp [atomEquals]
        | cons c1 d1 =>
            by_cases hab : U.cons c1 d1 = b
            · rw [hab]
            · have hba : ¬ (b = U.cons c1 d1) := fun h => hab h.symm
              obtain ⟨x2, d2, he2⟩ := is_cons_shape b hb
              subst he2
              rw [equals_cons_recv, equals_cons_recv, if_neg hab, if_neg hba, hb]
              simp only [if_true]
              by_cases ha : is_cons (U.cons c1 d1) = true
              · rw [ha]
                simp only [if_true]
                exact hecc _ _ hsz
              · have haf : is_cons (U.cons c1 d1) = false := by simpa using ha
                rw [haf]
                have hecc2 := ecc_fallback (U.cons (some x2) d2) (U.cons c1 d1)
                  (Or.inr haf)
                rw [is_cons_cons] at haf
                cases c1 with
                | some x1 => simp at haf
                | none =>
                    have hecc1 := ecc_fallback (U.cons none d1) (U.cons (some x2) d2)
                      (Or.inl (by rw [is_cons_cons]; rfl))
                    simp [is_cons_cons, is_atom_cons, isNil_cons, hecc2, hecc1]
      · exact equals_symm_not_cons a b (by simpa using hb)

theorem ecc_symm (p1 p2 : U) : equal_cons_cons p1 p2 = equal_cons_cons p2 p1 :=
  (symm_both (sizeOf p1 + sizeOf p2)).1 p1 p2 le_rfl

theorem equals_symm (a b : U) : U.equals a b = U.equals b a :=
  (symm_both (sizeOf a + sizeOf b)).2 a b le_rfl

theorem wf_nil : U.wf nil = true := rfl

theorem wf_cons_car (x : U) (d? : Option U) (h : U.wf (U.cons (some x) d?) = true) :
    U.wf x = true := by
  rw [U.wf.eq_def] at h
  simp at h
  exact h.1

theorem wf_cons_cdr (c? : Option U) (z : U) (h : U.wf (U.cons c? (some z)) = true) :
    (∃ e f, z = U.cons e f) ∧ U.wf z = true := by
  rw [U.wf.eq_def] at h
  rcases z with a | ⟨e, f⟩
  · simp at h
  · refine ⟨⟨e, f, rfl⟩, ?_⟩
    rcases c? with _ | c
    · simpa using h
    · simp at h
      exact h.2

theorem equals_not_cons_total (a b : U) (hb : is_cons b = false) :
    ∃ r, U.equals a b = .ok r := by
  cases a with
  | atom x => exact ⟨atomEquals x b, equals_atom_recv x b⟩
  | cons c1 d1 =>
      by_cases hab : U.cons c1 d1 = b
      · exact ⟨true, by rw [equals_cons_recv, if_pos hab]⟩
      · rw [equals_cons_recv, if_neg hab, hb]
        by_cases hat : is_atom b = true
        · exact ⟨false, by rw [hat]; rfl⟩
        · have hat2 : is_atom b = false := by simpa using hat
          rw [hat2]
          by_cases hnl : b.isNil = true
          · exact ⟨(U.cons c1 d1).isNil, by rw [hnl]; rfl⟩
          · have hnl2 : b.isNil = false := by simpa using hnl
            rw [hnl2]
            exact ⟨false, by rfl⟩

theorem total_both (n : Nat) :
    (∀ p1 p2 : U, sizeOf p1 + sizeOf p2 ≤ n → U.wf p1 = true → U.wf p2 = true →
        ∃ r, equal_cons_cons p1 p2 = .ok r) ∧
    (∀ a b : U, sizeOf a + sizeOf b ≤ n → U.wf a = true → U.wf b = true →
        ∃ r, U.equals a b = .ok r) := by
  induction n with
  | zero =>
      constructor
      · intro p1 p2 h _ _
        have := sizeOf_pos_U p1
        have := sizeOf_pos_U p2
        omega
      · intro a b h _ _
        have := sizeOf_pos_U a
        have := sizeOf_pos_U b
        omega
  | succ n ih =>
      have hecc : ∀ p1 p2 : U, sizeOf p1 + sizeOf p2 ≤ n + 1 →
          U.wf p1 = true → U.wf p2 = true → ∃ r, equal_cons_cons p1 p2 = .ok r := by
        intro p1 p2 hsz hw1 hw2
        by_cases h1 : is_cons p1 = true
        · by_cases h2 : is_cons p2 = true
          · obtain ⟨x1, d1, he1⟩ := is_cons_shape p1 h1
            obtain ⟨x2, d2, he2⟩ := is_cons_shape p2 h2
            subst he1
            subst he2
            have hs1 : sizeOf (U.cons (some x1) d1) = 2 + sizeOf x1 + sizeOf d1 := by
              simp_arith
            have hs2 : sizeOf (U.cons (some x2) d2) = 2 + sizeOf x2 + sizeOf d2 := by
              simp_arith
            have hwx1 := wf_cons_car x1 d1 hw1
            have hwx2 := wf_cons_car x2 d2 hw2
            obtain ⟨bcar, hbcar⟩ : ∃ r, U.equals x1 x2 = .ok r := by
              apply ih.2 x1 x2 ?_ hwx1 hwx2
              rw [hs1, hs2] at hsz
              omega
            rw [ecc_step, hbcar]
            cases bcar with
            | false => exact ⟨false, by simp [Bind.bind, Except.bind]⟩
            | true =>
                simp only [Bind.bind, Except.bind, if_true]
                rcases d1 with _ | z1
                · rcases d2 with _ | z2
                  · exact ⟨true, ecc_nil_nil⟩
                  · obtain ⟨⟨e2, f2, hz2⟩, hwz2⟩ := wf_cons_cdr (some x2) z2 hw2
                    subst hz2
                    apply ih.1 nil (U.cons e2 f2) ?_ wf_nil hwz2
                    have : sizeOf (some (U.cons e2 f2) : Option U) =
                        2 + sizeOf e2 + sizeOf f2 := by simp_arith
                    rw [hs1, hs2, this] at hsz
                    simp [nil]
                    omega
                · obtain ⟨⟨e1, f1, hz1⟩, hwz1⟩ := wf_cons_cdr (some x1) z1 hw1
                  subst hz1
                  rcases d2 with _ | z2
                  · apply ih.1 (U.cons e1 f1) nil ?_ hwz1 wf_nil
                    have : sizeOf (some (U.cons e1 f1) : Option U) =
                        2 + sizeOf e1 + sizeOf f1 := by simp_arith
                    rw [hs1, hs2, this] at hsz
                    simp [nil]
                    omega
                  · obtain ⟨⟨e2, f2, hz2⟩, hwz2⟩ := wf_cons_cdr (some x2) z2 hw2
                    subst hz2
                    apply ih.1 (U.cons e1 f1) (U.cons e2 f2) ?_ hwz1 hwz2
                    have ha1 : sizeOf (some (U.cons e1 f1) : Option U) =
                        2 + sizeOf e1 + sizeOf f1 := by simp_arith
                    have ha2 : sizeOf (some (U.cons e2 f2) : Option U) =
                        2 + sizeOf e2 + sizeOf f2 := by simp_arith
                    rw [hs1, hs2, ha1, ha2] at hsz
                    simp_arith
                    omega
          · have h2f : is_cons p2 = false := by simpa using h2
            rw [ecc_fallback p1 p2 (Or.inr h2f), h1]
            exact ⟨false, by simp⟩
        · have h1f : is_cons p1 = false := by simpa using h1
          rw [ecc_fallback p1 p2 (Or.inl h1f), h1f]
          by_cases h2 : is_cons p2 = true
          · rw [h2]
            exact ⟨false, by simp⟩
          · have h2f : is_cons p2 = false := by simpa using h2
            rw [h2f]
            simp only [Bool.false_eq_true, if_false]
            exact equals_not_cons_total p1 p2 h2f
      refine ⟨hecc, ?_⟩
      intro a b hsz hwa hwb
      by_cases hb : is_cons b = true
      · cases a with
        | atom x => exact ⟨atomEquals x b, equals_atom_recv x b⟩
        | cons c1 d1 =>
            by_cases hab : U.cons c1 d1 = b
            · exact ⟨true, by rw [equals_cons_recv, if_pos hab]⟩
            · rw [equals_cons_recv, if_neg hab, hb]
              simp only [if_true]
              exact hecc _ _ hsz hwa hwb
      · exact equals_not_cons_total a b (by simpa using hb)

theorem equals_total (a b : U) (hwa : U.wf a = true) (hwb : U.wf b = true) :
    ∃ r, U.equals a b = .ok r :=
  (total_both (sizeOf a + sizeOf b)).2 a b le_rfl hwa hwb

theorem contains_atom_recv (a : String) (needle : U) :
    U.contains (U.atom a) needle = .ok (atomEquals a needle) := by
  rw [U.contains.eq_def]

theorem contains_cons_recv (c? d? : Option U) (needle : U) :
    U.contains (U.cons c? d?) needle =
      (if U.cons c? d? = needle then .ok true
       else do
        let b ← U.equals (U.cons c? d?) needle
        if b then .ok true
        else
          match c?, d? with
          | some c, some d => do
              let bc ← U.contains c needle
              if bc then .ok true
              else U.contains d needle
          | _, _ => .ok false) := by
  rw [U.contains.eq_def]

theorem contains_self (u : U) : U.contains u u = .ok true := by
  cases u with
  | atom a => rw [contains_atom_recv]; simp [atomEquals]
  | cons c? d? => rw [contains_cons_recv, if_pos rfl]

theorem contains_total_aux (n : Nat) :
    ∀ u x : U, sizeOf u ≤ n → U.wf u = true → U.wf x = true →
      ∃ r, U.contains u x = .ok r := by
  induction n with
  | zero =>
      intro u x h _ _
      have := sizeOf_pos_U u
      omega
  | succ n ih =>
      intro u x hsz hwu hwx
      cases u with
      | atom a => exact ⟨atomEquals a x, contains_atom_recv a x⟩
      | cons c? d? =>
          by_cases heq : U.cons c? d? = x
          · exact ⟨true, by rw [contains_cons_recv, if_pos heq]⟩
          · obtain ⟨b, hb⟩ := equals_total (U.cons c? d?) x hwu hwx
            rw [contains_cons_recv, if_neg heq, hb]
            cases b with
            | true => exact ⟨true, by simp [Bind.bind, Except.bind]⟩
            | false =>
                simp only [Bind.bind, Except.bind, Bool.false_eq_true, if_false]
                rcases c? with _ | c
                · exact ⟨false, rfl⟩
                · rcases d? with _ | d
                  · exact ⟨false, rfl⟩
                  · have hwc := wf_cons_car c (some d) hwu
                    obtain ⟨_, hwd⟩ := wf_cons_cdr (some c) d hwu
                    have hszc : sizeOf (U.cons (some c) (some d)) =
                        3 + sizeOf c + sizeOf d := by simp_arith
                    obtain ⟨bc, hbc⟩ := ih c x (by omega) hwc hwx
                    dsimp only
                    rw [hbc]
                    cases bc with
                    | true => exact ⟨true, by simp⟩
                    | false =>
                        simp only [Bool.false_eq_true, if_false]
                        exact ih d x (by omega) hwd hwx

theorem contains_total (u x : U) (hwu : U.wf u = true) (hwx : U.wf x = true) :
    ∃ r, U.contains u x = .ok r :=
  contains_total_aux (sizeOf u) u x le_rfl hwu hwx

theorem contains_of_elem (xs : List U) (e x : U)
    (hwxs : ∀ z ∈ xs, U.wf z = true) (hwx : U.wf x = true)
    (he : e ∈ xs) (hex : U.contains e x = .ok true) :
    U.contains (items_to_cons xs) x = .ok true := by
  induction xs with
  | nil => simp at he
  | cons z rest ih =>
      rw [items_to_cons_cons_eq]
      by_cases heq : U.cons (some z) (some (items_to_cons rest)) = x
      · rw [contains_cons_recv, if_pos heq]
      · have hwnode : U.wf (U.cons (some z) (some (items_to_cons rest))) = true := by
          rw [← items_to_cons_cons_eq]
          exact wf_items (z :: rest) hwxs
        obtain ⟨b, hb⟩ := equals_total _ x hwnode hwx
        rw [contains_cons_recv, if_neg heq, hb]
        cases b with
        | true => simp [Bind.bind, Except.bind]
        | false =>
            simp only [Bind.bind, Except.bind, Bool.false_eq_true, if_false]
            rcases List.mem_cons.mp he with rfl | he2
            · rw [hex]
              simp
            · have hwz : U.wf z = true := hwxs z (by simp)
              obtain ⟨bz, hbz⟩ := contains_total z x hwz hwx
              rw [hbz]
              cases bz with
              | true => simp
              | false =>
                  simp only [Bool.false_eq_true, if_false]
                  exact ih (fun w hw => hwxs w (by simp [hw])) he2

theorem equals_nil_right (x : U) : U.equals x nil = .ok (is_nil x) := by
  cases x with
  | atom a => rw [equals_atom_recv]; simp [atomEquals, nil, is_nil, U.isNil]
  | cons c? d? =>
      by_cases h : U.cons c? d? = nil
      · rw [equals_cons_recv, if_pos h]
        have : c? = none := by
          rw [nil] at h
          cases h
          rfl
        subst this
        rfl
      · rw [equals_cons_recv, if_neg h]
        have h1 : is_cons nil = false := rfl
        have h2 : is_atom nil = false := rfl
        have h3 : nil.isNil = true := rfl
        rw [h1, h2, h3]
        simp [is_nil, isNil_cons]

theorem equals_nil_left (d? : Option U) : U.equals nil (U.cons none d?) = .ok true := by
  rw [show nil = U.cons none none from rfl]
  by_cases h : U.cons (none : Option U) (none : Option U) = U.cons none d?
  · rw [equals_cons_recv, if_pos h]
  · rw [equals_cons_recv, if_neg h]
    have h1 : is_cons (U.cons none d?) = false := by rw [is_cons_cons]; rfl
    have h2 : is_atom (U.cons none d?) = false := is_atom_cons none d?
    have h3 : (U.cons none d?).isNil = true := rfl
    rw [h1, h2, h3]
    rfl

theorem ecc_chain_forall2 (xs ys : List U)
    (h : List.Forall₂ (fun x y => U.equals x y = .ok true) xs ys) :
    equal_cons_cons (items_to_cons xs) (items_to_cons ys) = .ok true := by
  induction h with
  | nil => exact ecc_nil_nil
  | cons hxy htl ih =>
      rw [items_to_cons_cons_eq, items_to_cons_cons_eq, ecc_step, hxy]
      simp only [Bind.bind, Except.bind, if_true]
      rename_i x y xs' ys'
      obtain ⟨e1, f1, hc1⟩ := chain_shape xs'
      obtain ⟨e2, f2, hc2⟩ := chain_shape ys'
      rw [hc1, hc2]
      dsimp only
      rw [← hc1, ← hc2]
      exact ih

theorem equals_chain_forall2 (xs ys : List U)
    (h : List.Forall₂ (fun x y => U.equals x y = .ok true) xs ys) :
    U.equals (items_to_cons xs) (items_to_cons ys) = .ok true := by
  obtain ⟨c1, d1, hc1⟩ := chain_shape xs
  by_cases h0 : items_to_cons xs = items_to_cons ys
  · rw [hc1] at h0 ⊢
    rw [equals_cons_recv, if_pos h0]
  · cases ys with
    | nil =>
        cases h
        simp at h0
    | cons y yt =>
        rw [hc1, equals_cons_recv, if_neg (by rw [← hc1]; exact h0)]
        have hic : is_cons (items_to_cons (y :: yt)) = true := by
          rw [items_to_cons_cons_eq, is_cons_cons]
          rfl
        rw [hic]
        simp only [if_true]
        rw [← hc1]
        exact ecc_chain_forall2 xs (y :: yt) h

theorem ecc_chain_ne_length (xs ys : List U) (h : xs.length ≠ ys.length) :
    equal_cons_cons (items_to_cons xs) (items_to_cons ys) ≠ .ok true := by
  induction xs generalizing ys with
  | nil =>
      cases ys with
      | nil => simp at h
      | cons y yt =>
          rw [items_to_cons_nil_eq, items_to_cons_cons_eq]
          rw [ecc_fallback _ _ (Or.inl (by rw [nil, is_cons_cons]; rfl))]
          have h1 : is_cons nil = false := rfl
          have h2 : is_cons (U.cons (some y) (some (items_to_cons yt))) = true := by
            rw [is_cons_cons]; rfl
          rw [h1, h2]
          simp
  | cons x xt ih =>
      cases ys with
      | nil =>
          rw [items_to_cons_nil_eq, items_to_cons_cons_eq]
          rw [ecc_fallback _ _ (Or.inr (by rw [nil, is_cons_cons]; rfl))]
          have h2 : is_cons (U.cons (some x) (some (items_to_cons xt))) = true := by
            rw [is_cons_cons]; rfl
          rw [h2]
          simp
      | cons y yt =>
          rw [items_to_cons_cons_eq, items_to_cons_cons_eq, ecc_step]
          cases he : U.equals x y with
          | error e => simp [Bind.bind, Except.bind]
          | ok b =>
              cases b with
              | false => simp [Bind.bind, Except.bind]
              | true =>
                  simp only [Bind.bind, Except.bind, if_true]
                  obtain ⟨e1, f1, hc1⟩ := chain_shape xt
                  obtain ⟨e2, f2, hc2⟩ := chain_shape yt
                  rw [hc1, hc2]
                  dsimp only
                  rw [← hc1, ← hc2]
                  exact ih yt (by simp at h; omega)

theorem equals_chain_ne_length (xs ys : List U) (h : xs.length ≠ ys.length) :
    U.equals (items_to_cons xs) (items_to_cons ys) ≠ .ok true := by
  obtain ⟨c1, d1, hc1⟩ := chain_shape xs
  by_cases h0 : items_to_cons xs = items_to_cons ys
  · exfalso
    have hl1 := length_chain xs
    have hl2 := length_chain ys
    rw [h0] at hl1
    rw [hl1] at hl2
    injection hl2 with hh
    exact h hh
  · cases ys with
    | nil =>
        cases xs with
        | nil => simp at h
        | cons x xt =>
            rw [items_to_cons_cons_eq, items_to_cons_nil_eq, equals_cons_recv]
            rw [if_neg (by rw [← items_to_cons_cons_eq, ← items_to_cons_nil_eq]; exact h0)]
            have h1 : is_cons nil = false := rfl
            have h2 : is_atom nil = false := rfl
            have h3 : nil.isNil = true := rfl
            rw [h1, h2, h3]
            simp [isNil_cons]
    | cons y yt =>
        rw [hc1, equals_cons_recv, if_neg (by rw [← hc1]; exact h0)]
        have hic : is_cons (items_to_cons (y :: yt)) = true := by
          rw [items_to_cons_cons_eq, is_cons_cons]; rfl
        rw [hic]
        simp only [if_true]
        rw [← hc1]
        exact ecc_chain_ne_length xs (y :: yt) h

theorem equals_atom_pair (v : String) (c : U) (d? : Option U) :
    U.equals (U.atom v) (U.cons (some c) d?) = .ok false ∧
    U.equals (U.cons (some c) d?) (U.atom v) = .ok false := by
  constructor
  · rw [equals_atom_recv]
    rfl
  · rw [equals_cons_recv, if_neg (by simp), is_cons_atom, is_atom_atom]
    rfl

/-! ### Claim theorems -/

/-- C1: for every expression handle `x`, the free empty test `is_nil` agrees
with structural equality against the sentinel: `x.equals(nil)` returns exactly
`is_nil x`; in particular any pair node with an unset head-slot (even one that
is not the canonical sentinel object, whatever junk its cdr-slot holds) is
`equals`-equal to `nil` in both directions. -/
theorem claim_C1 (x : U) (d? : Option U) :
    U.equals x nil = .ok (is_nil x) ∧
    (is_nil x = true ↔ U.equals x nil = .ok true) ∧
    U.equals (U.cons none d?) nil = .ok true ∧
    U.equals nil (U.cons none d?) = .ok true := by
  refine ⟨equals_nil_right x, ?_, ?_, equals_nil_left d?⟩
  · rw [equals_nil_right x]
    constructor
    · intro h; rw [h]
    · intro h; injection h
  · rw [equals_nil_right (U.cons none d?)]
    rfl

/-- C2: structural equality is reflexive and symmetric; two independently
built chains with pairwise `equals`-equal elements are `equals`-equal;
chains of different length are never `equals`-equal; an atom is never
`equals`-equal to a non-empty pair node, in either direction. -/
theorem claim_C2 :
    (∀ x : U, U.equals x x = .ok true) ∧
    (∀ a b : U, U.equals a b = U.equals b a) ∧
    (∀ xs ys : List U, List.Forall₂ (fun x y => U.equals x y = .ok true) xs ys →
        U.equals (items_to_cons xs) (items_to_cons ys) = .ok true) ∧
    (∀ xs ys : List U, xs.length ≠ ys.length →
        U.equals (items_to_cons xs) (items_to_cons ys) ≠ .ok true) ∧
    (∀ (v : String) (c : U) (d? : Option U),
        U.equals (U.atom v) (U.cons (some c) d?) = .ok false ∧
        U.equals (U.cons (some c) d?) (U.atom v) = .ok false) :=
  ⟨equals_self, equals_symm, equals_chain_forall2, equals_chain_ne_length,
    equals_atom_pair⟩

theorem claim_C2_witness :
    U.equals (items_to_cons [U.atom "a", U.atom "b"])
        (items_to_cons [U.atom "a", U.atom "b"]) = .ok true ∧
    U.equals (items_to_cons [U.atom "a"])
        (items_to_cons [U.atom "a", U.atom "b"]) ≠ .ok true := by
  constructor
  · exact claim_C2.2.2.1 [U.atom "a", U.atom "b"] [U.atom "a", U.atom "b"]
      (List.Forall₂.cons (claim_C2.1 (U.atom "a"))
        (List.Forall₂.cons (claim_C2.1 (U.atom "b")) List.Forall₂.nil))
  · exact claim_C2.2.2.2.1 [U.atom "a"] [U.atom "a", U.atom "b"] (by simp)

/-- C3: `items_to_cons` with zero items yields the sentinel; with items it
yields a NIL-terminated chain preserving input order, so `item i` returns the
`i`-th input for `0 ≤ i < n`, and any index out of range (negative or at
least the length) fails with the `IndexError`. -/
theorem claim_C3 :
    items_to_cons [] = nil ∧
    (∀ (xs : List U) (i : Nat) (v : U), xs[i]? = some v →
        U.item (items_to_cons xs) (i : Int) = .ok v) ∧
    (∀ (xs : List U) (i : Int), i < 0 ∨ (xs.length : Int) ≤ i →
        U.item (items_to_cons xs) i = .error .indexOutOfBounds) :=
  ⟨rfl, item_chain_get, item_chain_oob⟩

theorem claim_C3_witness :
    U.item (items_to_cons [U.atom "a", U.atom "b", U.atom "c"]) ((1 : Nat) : Int) =
        .ok (U.atom "b") ∧
    U.item (items_to_cons [U.atom "a", U.atom "b", U.atom "c"]) 3 =
        .error .indexOutOfBounds ∧
    U.item (items_to_cons [U.atom "a", U.atom "b", U.atom "c"]) (-1) =
        .error .indexOutOfBounds := by
  refine ⟨?_, ?_, ?_⟩
  · exact claim_C3.2.1 [U.atom "a", U.atom "b", U.atom "c"] 1 (U.atom "b") rfl
  · exact claim_C3.2.2 [U.atom "a", U.atom "b", U.atom "c"] 3 (by right; simp)
  · exact claim_C3.2.2 [U.atom "a", U.atom "b", U.atom "c"] (-1) (by left; simp)

/-- C4 counterexample: the claim says `base` has the same bounds behaviour as
`item` and fails with an `IndexError` on a one-element list; in fact `base`
on a one-element list returns the sentinel (its `car`/`head` getters never
throw) while `item 1` does fail. -/
theorem claim_C4_counterexample :
    U.base (items_to_cons [U.atom "foo"]) = .ok nil ∧
    U.item (items_to_cons [U.atom "foo"]) 1 = .error .indexOutOfBounds := by
  constructor
  · rfl
  · exact item_chain_oob [U.atom "foo"] 1 (by right; simp)

/-- C4 amended: `opr`/`arg`/`lhs`/`rhs` are exactly `item 0/1/1/2` (same
bounds behaviour); `base` and `expo` agree with `item 1`/`item 2` whenever
the chain is long enough, but on too-short well-formed chains they return the
sentinel instead of failing with an `IndexError`. -/
theorem claim_C4_amended (u x y z : U) (rest : List U) :
    (U.opr u = U.item u 0 ∧ U.arg u = U.item u 1 ∧
     U.lhs u = U.item u 1 ∧ U.rhs u = U.item u 2) ∧
    (U.base (items_to_cons (x :: y :: rest)) = .ok y ∧
     U.item (items_to_cons (x :: y :: rest)) 1 = .ok y) ∧
    (U.expo (items_to_cons (x :: y :: z :: rest)) = .ok z ∧
     U.item (items_to_cons (x :: y :: z :: rest)) 2 = .ok z) ∧
    (U.base (items_to_cons [x]) = .ok nil ∧
     U.item (items_to_cons [x]) 1 = .error .indexOutOfBounds) ∧
    (U.expo (items_to_cons [x, y]) = .ok nil ∧
     U.item (items_to_cons [x, y]) 2 = .error .indexOutOfBounds) ∧
    (U.base nil = .ok nil ∧ U.expo nil = .ok nil) := by
  refine ⟨⟨rfl, rfl, rfl, rfl⟩, ⟨rfl, ?_⟩, ⟨rfl, ?_⟩, ⟨rfl, ?_⟩, ⟨rfl, ?_⟩, rfl, rfl⟩
  · exact item_chain_get (x :: y :: rest) 1 y (by simp)
  · exact item_chain_get (x :: y :: z :: rest) 2 z (by simp)
  · exact item_chain_oob [x] 1 (by right; simp)
  · exact item_chain_oob [x, y] 2 (by right; simp)

/-- C5: `contains` is self-inclusive (identity/structural short-circuit), true
for every element directly held in the chain, and true for elements nested in
sub-pair elements, e.g. `build-list(build-list(a), b).contains(a)`. -/
theorem claim_C5 :
    (∀ u : U, U.contains u u = .ok true) ∧
    (∀ (xs : List U) (x : U), (∀ z ∈ xs, U.wf z = true) → U.wf x = true →
        x ∈ xs → U.contains (items_to_cons xs) x = .ok true) ∧
    (∀ (xs : List U) (e x : U), (∀ z ∈ xs, U.wf z = true) → U.wf x = true →
        e ∈ xs → U.contains e x = .ok true →
        U.contains (items_to_cons xs) x = .ok true) ∧
    (∀ a b : String,
        U.contains (items_to_cons [items_to_cons [U.atom a], U.atom b])
          (U.atom a) = .ok true) := by
  refine ⟨contains_self, ?_, contains_of_elem, ?_⟩
  · intro xs x hwxs hwx hx
    exact contains_of_elem xs x x hwxs hwx hx (contains_self x)
  · intro a b
    apply contains_of_elem [items_to_cons [U.atom a], U.atom b]
      (items_to_cons [U.atom a]) (U.atom a)
    · intro z hz
      simp at hz
      rcases hz with rfl | rfl
      · exact wf_items [U.atom a] (by intro w hw; simp at hw; subst hw; rfl)
      · rfl
    · rfl
    · simp
    · apply contains_of_elem [U.atom a] (U.atom a) (U.atom a)
      · intro z hz
        simp at hz
        subst hz
        rfl
      · rfl
      · simp
      · exact contains_self (U.atom a)

theorem claim_C5_witness :
    U.contains (items_to_cons [U.atom "p", U.atom "q"]) (U.atom "q") = .ok true ∧
    U.contains (items_to_cons [items_to_cons [U.atom "u"], U.atom "v"])
        (U.atom "u") = .ok true := by
  constructor
  · apply claim_C5.2.1 [U.atom "p", U.atom "q"] (U.atom "q")
    · intro z hz
      simp at hz
      rcases hz with rfl | rfl <;> rfl
    · rfl
    · simp
  · exact claim_C5.2.2.2 "u" "v"

/-- C6: `tail()` on a chain built from at least one item returns the ordered
collection of all items except the first; `tail()` on the sentinel fails with
the `EmptyListError`. -/
theorem claim_C6 (x : U) (xs : List U) :
    U.tail (items_to_cons (x :: xs)) = .ok xs ∧
    U.tail nil = .error .emptyList :=
  ⟨tail_chain x xs, tail_nil_err⟩

/-- C7: the free `cons` function succeeds exactly when its second argument is
pair-node-typed (a `Cons`, including the sentinel), returning a fresh node
holding exactly the two arguments; on an atom it fails with the `ShapeError`
and constructs nothing. -/
theorem claim_C7 (h : U) (c? d? : Option U) (v : String) :
    cons h (U.cons c? d?) = .ok (U.cons (some h) (some (U.cons c? d?))) ∧
    cons h (U.atom v) = .error .shape :=
  ⟨rfl, rfl⟩

/-- C8: on any handle whose rest-slots are recursively list-shaped, the free
`car` and `cdr` never fail: they return the head/rest of a non-empty pair
node and the sentinel otherwise; the `cdr` getter's error branch is
unreachable. -/
theorem claim_C8 (x : U) (hw : U.wf x = true) :
    (∃ r, cdr x = .ok r) ∧
    (∀ (c : U) (d? : Option U), x = U.cons (some c) d? → car x = c) ∧
    (∀ c d : U, x = U.cons (some c) (some d) → cdr x = .ok d) ∧
    (∀ c : U, x = U.cons (some c) none → cdr x = .ok nil) ∧
    (is_cons x = false → car x = nil ∧ cdr x = .ok nil) := by
  refine ⟨?_, ?_, ?_, ?_, ?_⟩
  · rcases x with a | ⟨c?, d?⟩
    · exact ⟨nil, rfl⟩
    · rcases c? with _ | c
      · exact ⟨nil, rfl⟩
      · rcases d? with _ | d
        · exact ⟨nil, rfl⟩
        · obtain ⟨⟨e, f, hd⟩, _⟩ := wf_cons_cdr (some c) d hw
          subst hd
          exact ⟨U.cons e f, rfl⟩
  · rintro c d? rfl
    rfl
  · rintro c d rfl
    obtain ⟨⟨e, f, hd⟩, _⟩ := wf_cons_cdr (some c) d hw
    subst hd
    rfl
  · rintro c rfl
    rfl
  · intro hnc
    rcases x with a | ⟨c?, d?⟩
    · exact ⟨rfl, rfl⟩
    · rcases c? with _ | c
      · exact ⟨rfl, rfl⟩
      · rw [is_cons_cons] at hnc
        simp at hnc

theorem claim_C8_witness :
    (∃ r, cdr (items_to_cons [U.atom "a"]) = .ok r) ∧
    car (items_to_cons [U.atom "a"]) = U.atom "a" ∧
    cdr (items_to_cons [U.atom "a"]) = .ok nil ∧
    car nil = nil ∧ cdr nil = .ok nil ∧
    car (U.atom "z") = nil ∧ cdr (U.atom "z") = .ok nil := by
  have h1 := claim_C8 (items_to_cons [U.atom "a"])
    (wf_items [U.atom "a"] (by intro z hz; simp at hz; subst hz; rfl))
  have h2 := claim_C8 nil rfl
  have h3 := claim_C8 (U.atom "z") rfl
  refine ⟨h1.1, ?_, ?_, ?_, ?_, ?_, ?_⟩
  · exact h1.2.1 (U.atom "a") (some nil) rfl
  · exact h1.2.2.1 (U.atom "a") nil rfl
  · exact (h2.2.2.2.2 rfl).1
  · exact (h2.2.2.2.2 rfl).2
  · exact (h3.2.2.2.2 rfl).1
  · exact (h3.2.2.2.2 rfl).2

/-- C9: `map(f)` on a chain returns the chain of the mapped elements (same
length, order preserved, `i`-th element `f` of the `i`-th input); a
non-`is_cons` tail object is kept as-is; mapping any empty pair node (the
sentinel included) returns that very node unchanged. -/
theorem claim_C9 (xs : List U) (f : U → U) (a : U) (d2 dd : Option U) :
    U.map (items_to_cons xs) f = .ok (items_to_cons (xs.map f)) ∧
    U.map nil f = .ok nil ∧
    U.map (U.cons none dd) f = .ok (U.cons none dd) ∧
    U.map (U.cons (some a) (some (U.cons none d2))) f =
        .ok (U.cons (some (f a)) (some (U.cons none d2))) ∧
    U.length (items_to_cons (xs.map f)) = .ok xs.length ∧
    (∀ (i : Nat) (v : U), xs[i]? = some v →
        U.item (items_to_cons (xs.map f)) (i : Int) = .ok (f v)) := by
  refine ⟨map_chain xs f, rfl, rfl, rfl, ?_, ?_⟩
  · rw [length_chain (xs.map f), List.length_map]
  · intro i v hv
    apply item_chain_get (xs.map f) i (f v)
    simp [hv]

theorem claim_C9_witness :
    U.map (items_to_cons [U.atom "a", U.atom "b"]) (fun _ => U.atom "c") =
        .ok (items_to_cons [U.atom "c", U.atom "c"]) ∧
    U.item (items_to_cons (([U.atom "a", U.atom "b"]).map (fun _ => U.atom "c")))
        ((0 : Nat) : Int) = .ok (U.atom "c") := by
  constructor
  · exact (claim_C9 [U.atom "a", U.atom "b"] (fun _ => U.atom "c")
      (U.atom "x") none none).1
  · exact (claim_C9 [U.atom "a", U.atom "b"] (fun _ => U.atom "c")
      (U.atom "x") none none).2.2.2.2.2 0 (U.atom "a") rfl

/-- C10 counterexample: the claim says every rest-chain-traversing operation,
`tail()` included, fails on a pair node whose cdr-slot holds an atom; in fact
`tail()` reads the raw slot, sees it is not `is_cons`, and returns the empty
collection without failing. -/
theorem claim_C10_counterexample :
    U.tail (U.cons (some (U.atom "a")) (some (U.atom "z"))) = .ok [] := rfl

/-- C10 amended: the `Cons` constructor performs no shape validation (only the
free `cons` function does), so a pair node with an atom in its cdr-slot
exists and is classified as a non-empty pair; on it the `cdr` getter fails at
access time, and `length`, `item` (for positions past the head) and the
structural-equality walk all fail — but `tail()` returns the empty collection
instead of failing, and `item 0` succeeds. -/
theorem claim_C10_amended (c : U) (z : String) :
    (U.cons (some c) (some (U.atom z))).isCons = true ∧
    (U.cons (some c) (some (U.atom z))).isNil = false ∧
    cons c (U.atom z) = .error .shape ∧
    U.cdr (U.cons (some c) (some (U.atom z))) = .error .cdrNotCons ∧
    U.length (U.cons (some c) (some (U.atom z))) = .error .cdrNotCons ∧
    U.item (U.cons (some c) (some (U.atom z))) 1 = .error .cdrNotCons ∧
    U.item (U.cons (some c) (some (U.atom z))) 0 = .ok c ∧
    U.tail (U.cons (some c) (some (U.atom z))) = .ok [] ∧
    U.equals (U.cons (some (U.atom "x")) (some (U.atom "y1")))
        (U.cons (some (U.atom "x")) (some (U.atom "y2"))) =
      .error .cdrNotCons := by
  refine ⟨rfl, rfl, rfl, rfl, rfl, ?_, rfl, ?_, ?_⟩
  · rw [U.item.eq_def]
    simp
  · cases z <;> rfl
  · rw [equals_cons_recv, if_neg (by decide)]
    rw [show is_cons (U.cons (some (U.atom "x")) (some (U.atom "y2"))) = true from rfl]
    simp only [if_true]
    rw [ecc_step]
    rw [show U.equals (U.atom "x") (U.atom "x") = .ok true from by
      rw [equals_atom_recv]; rfl]
    simp [Bind.bind, Except.bind]
